import Mathlib

/-!
Verification of the N-queens genetic-algorithm engine (`src/main.py`).

The engine is embedded shallowly:

* a `Board` is a list of integers (Python lists of `int`s);
* the shared pseudo-random source is made explicit: every function that
  consumes randomness takes the drawn values as parameters
  (`rand` for `randint` in `build_population`, `shuffled` for the result
  of `shuffle`, and `cv` for the `(col, val)` pairs drawn in `mutation`);
  the `randint(lo, hi)` contract (results lie in `[lo, hi]`) becomes a
  hypothesis where a claim needs it;
* the mutation rate (a Python float in `[0, 1]`) is modelled as a
  rational number; `int(x)` on a non-negative value is `⌊x⌋`;
* `eliminate` and the outer loop return `Option` values: `none` models
  the `IndexError` Python would raise on an empty population
  (`combined[0]` / `population[0]`).
-/

/-- A board: one column index per row, as produced by the Python lists. -/
abbrev Board := List ℤ

/-- `build_population(population_size, n)`:
`[[randint(0, n - 1) for _ in range(n)] for _ in range(population_size)]`,
with `rand b k` the value drawn for position `k` of board `b`. -/
def build_population (population_size n : ℕ) (rand : ℕ → ℕ → ℤ) : List Board :=
  (List.range population_size).map (fun b => (List.range n).map (fun k => rand b k))

/-- The children appended by the `for i in range(0, len(population_list) - 1, 2)`
loop of `crossover`: for each consecutive pair `(a, b)` the children
`a[:d] + b[d:]` and `b[:d] + a[d:]`, in loop order; a trailing unpaired
board produces no children. -/
def crossoverChildren (d : ℕ) : List Board → List Board
  | a :: b :: rest =>
      (a.take d ++ b.drop d) :: (b.take d ++ a.drop d) :: crossoverChildren d rest
  | _ => []

/-- `crossover(population_list, n)`: copy the population, then append both
children of every consecutive pair, with split point `div_index = n // 2`. -/
def crossover (population_list : List Board) (n : ℕ) : List Board :=
  population_list ++ crossoverChildren (n / 2) population_list

/-- `list(range(len(population_list) // 2, len(population_list)))`:
the candidate index pool of the mutation stage. -/
def mutationPool (len : ℕ) : List ℕ :=
  List.range' (len / 2) (len - len / 2)

/-- `int(len(mutated_population) * mutation_rate)`: the number of pool
indices mutated (`int` truncates, i.e. floors, the non-negative product). -/
def chosenCount (poolLen : ℕ) (mutation_rate : ℚ) : ℕ :=
  (⌊(poolLen : ℚ) * mutation_rate⌋).toNat

/-- `mutated_population[:int(len(mutated_population) * mutation_rate)]`
where `mutated_population` is the shuffled pool. -/
def chosenIndices (shuffled : List ℕ) (mutation_rate : ℚ) : List ℕ :=
  shuffled.take (chosenCount shuffled.length mutation_rate)

/-- One loop body of `mutation`: `population_list[i][col] = val`. -/
def mutateAt (pop : List Board) (i col : ℕ) (val : ℤ) : List Board :=
  pop.set i ((pop.getD i []).set col val)

/-- `mutation(population_list, mutation_rate, n)`; `shuffled` is the shuffled
pool and `cv` the stream of `(col, val) = (randint(0, n-1), randint(0, n-1))`
pairs drawn inside the loop, one per chosen index. -/
def mutation (population_list : List Board) (mutation_rate : ℚ)
    (shuffled : List ℕ) (cv : List (ℕ × ℤ)) : List Board :=
  (((chosenIndices shuffled mutation_rate).zip cv).foldl
    (fun p t => mutateAt p t.1 t.2.1 t.2.2) population_list)

/-- The conflict test of `evaluate_gen`:
`gen[i] == gen[j] or abs(i - j) == abs(gen[i] - gen[j])`. -/
def conflictTest (gen : Board) (i j : ℕ) : Bool :=
  decide (gen.getD i 0 = gen.getD j 0 ∨
    |(i : ℤ) - (j : ℤ)| = |gen.getD i 0 - gen.getD j 0|)

/-- `evaluate_gen(gen)`: the nested loops `for i in range(len(gen))`,
`for j in range(i + 1, len(gen))` incrementing `conflict` whenever the
conflict test holds; `range(i + 1, len(gen))` is `range' (i+1) (len-(i+1))`. -/
def evaluate_gen (gen : Board) : ℕ :=
  ((List.range gen.length).map (fun i =>
    (List.range' (i + 1) (gen.length - (i + 1))).countP (fun j =>
      conflictTest gen i j))).sum

/-- `fitness(population_list)`: one conflict score per board. -/
def fitness (population_list : List Board) : List ℕ :=
  population_list.map evaluate_gen

/-- The sort key of `eliminate`: compare `(score, board)` pairs by score. -/
def scoreLE (x y : ℕ × Board) : Prop := x.1 ≤ y.1

instance : DecidableRel scoreLE := fun x y => Nat.decLe x.1 y.1

instance : IsTotal (ℕ × Board) scoreLE := ⟨fun a b => Nat.le_total a.1 b.1⟩

instance : IsTrans (ℕ × Board) scoreLE := ⟨fun _ _ _ hab hbc => Nat.le_trans hab hbc⟩

/-- `eliminate(population_list, evaluate_list, population_size)`:
stable-sort the zipped `(score, board)` pairs by score; if the best score
is `0` return that single board with scores `[0]`, otherwise keep the first
`population_size` pairs.  `none` models the `IndexError` of `combined[0]`
on an empty zip. -/
def eliminate (population_list : List Board) (evaluate_list : List ℕ)
    (population_size : ℕ) : Option (List Board × List ℕ) :=
  let combined := List.insertionSort scoreLE (evaluate_list.zip population_list)
  match combined with
  | [] => none
  | (s, b) :: rest =>
      if s = 0 then some ([b], [0])
      else
        let top := ((s, b) :: rest).take population_size
        some (top.map (fun x => x.2), top.map (fun x => x.1))

/-- The `for gen in range(generations)` loop of `start_algorithm`, fuel =
remaining iterations, `g` = the Python loop index `gen` of the next iteration.
`shuffles g` / `cvs g` are the random draws of iteration `g`.  The loop
returns the final population together with `some (gen + 1)` when
`0 in scores` (SOLVED) or `none` after the budget is exhausted; the outer
`Option` is `none` when Python would raise an `IndexError`. -/
def gaLoop (n P : ℕ) (mutation_rate : ℚ) (shuffles : ℕ → List ℕ)
    (cvs : ℕ → List (ℕ × ℤ)) : ℕ → ℕ → List Board → Option (List Board × Option ℕ)
  | 0, _, pop => some (pop, none)
  | fuel + 1, g, pop =>
      let pop1 := crossover pop n
      let pop2 := mutation pop1 mutation_rate (shuffles g) (cvs g)
      let scores := fitness pop2
      match eliminate pop2 scores P with
      | none => none
      | some (pop', scores') =>
          if 0 ∈ scores' then some (pop', some (g + 1))
          else gaLoop n P mutation_rate shuffles cvs fuel (g + 1) pop'

/-- `start_algorithm` (engine part, inputs already validated): build the
population, run `generations = n * 2` loop iterations, and emit
`population[0]` with the generation indicator that `draw_board` receives
(`some (gen + 1)` for SOLVED, `none` for "no perfect solution"). -/
def start_algorithm (n pop_size : ℕ) (mut_rate : ℚ) (rand : ℕ → ℕ → ℤ)
    (shuffles : ℕ → List ℕ) (cvs : ℕ → List (ℕ × ℤ)) : Option (Board × Option ℕ) :=
  (gaLoop n pop_size mut_rate shuffles cvs (n * 2) 0
      (build_population pop_size n rand)).bind
    (fun r => r.1.head?.map (fun b => (b, r.2)))

/-- Instrumented copy of `gaLoop` that also counts the executed
recombination/mutation/evaluation/selection cycles (verification artifact
for the resource claim; proved equal to `gaLoop` below). -/
def gaLoopCount (n P : ℕ) (mutation_rate : ℚ) (shuffles : ℕ → List ℕ)
    (cvs : ℕ → List (ℕ × ℤ)) : ℕ → ℕ → List Board → Option (List Board × Option ℕ) × ℕ
  | 0, _, pop => (some (pop, none), 0)
  | fuel + 1, g, pop =>
      let pop1 := crossover pop n
      let pop2 := mutation pop1 mutation_rate (shuffles g) (cvs g)
      let scores := fitness pop2
      match eliminate pop2 scores P with
      | none => (none, 1)
      | some (pop', scores') =>
          if 0 ∈ scores' then (some (pop', some (g + 1)), 1)
          else
            let r := gaLoopCount n P mutation_rate shuffles cvs fuel (g + 1) pop'
            (r.1, r.2 + 1)

/-! ## Specification-side definitions -/

/-- The conflict condition on a pair of rows, as a proposition:
same column, or same diagonal. -/
def conflictCond (gen : Board) (i j : ℕ) : Prop :=
  gen.getD i 0 = gen.getD j 0 ∨
    |(i : ℤ) - (j : ℤ)| = |gen.getD i 0 - gen.getD j 0|

instance (gen : Board) (i j : ℕ) : Decidable (conflictCond gen i j) := by
  unfold conflictCond; infer_instance

/-- The set of conflicting unordered pairs of rows `(i, j)`, `i < j`,
of a board (the quantity the specification says `evaluate_gen` counts). -/
def specConflictPairs (gen : Board) : Finset (ℕ × ℕ) :=
  (Finset.range gen.length ×ˢ Finset.range gen.length).filter
    (fun p => p.1 < p.2 ∧ conflictCond gen p.1 p.2)

/-- The board invariant: length `n`, every value a column index in
`[0, n-1]`. -/
def boardInv (n : ℕ) (b : Board) : Prop :=
  b.length = n ∧ ∀ v ∈ b, 0 ≤ v ∧ v < (n : ℤ)

/-! ## Helper lemmas: counting -/

theorem length_filter_eq_sum_ite {α : Type} (l : List α) (q : α → Bool) :
    (l.filter q).length = (l.map (fun i => if q i = true then 1 else 0)).sum := by
  induction l with
  | nil => rfl
  | cons a t ih =>
      by_cases h : q a <;> simp [List.filter_cons, h, ih, Nat.add_comm]

theorem countP_range'_card (a b : ℕ) (q : ℕ → Bool) :
    (List.range' a (b - a)).countP q = ((Finset.Ico a b).filter (fun j => q j)).card := by
  rw [List.countP_eq_length_filter, Finset.card_filter]
  rw [Nat.Ico_eq_range']
  simp only [Finset.sum, Finset.val]
  rw [length_filter_eq_sum_ite]
  rfl

/-! ## The pair-counting specification of `evaluate_gen` -/

theorem conflictTest_iff (gen : Board) (i j : ℕ) :
    conflictTest gen i j = true ↔ conflictCond gen i j := by
  simp [conflictTest, conflictCond]

theorem evaluate_gen_eq_card (gen : Board) :
    evaluate_gen gen = (specConflictPairs gen).card := by
  classical
  set L := gen.length with hL
  have hsum : evaluate_gen gen =
      ∑ i in Finset.range L, (List.range' (i + 1) (L - (i + 1))).countP
        (fun j => conflictTest gen i j) := rfl
  rw [hsum, specConflictPairs, Finset.card_filter, Finset.sum_product]
  refine Finset.sum_congr rfl (fun i hi => ?_)
  have hiL : i < L := Finset.mem_range.mp hi
  rw [countP_range'_card (i + 1) L (fun j => conflictTest gen i j)]
  rw [Finset.card_filter]
  have hsplit : ∑ j in Finset.range L,
      (if i < j ∧ conflictCond gen i j then 1 else 0) =
      ∑ j in Finset.Ico 0 (i + 1), (if i < j ∧ conflictCond gen i j then 1 else 0)
      + ∑ j in Finset.Ico (i + 1) L, (if i < j ∧ conflictCond gen i j then 1 else 0) := by
    rw [Finset.sum_Ico_consecutive _ (Nat.zero_le (i + 1)) hiL]
    rw [← Nat.Ico_zero_eq_range]
  rw [hsplit]
  have h0 : ∑ j in Finset.Ico 0 (i + 1),
      (if i < j ∧ conflictCond gen i j then 1 else 0) = 0 := by
    refine Finset.sum_eq_zero (fun j hj => ?_)
    have : j < i + 1 := (Finset.mem_Ico.mp hj).2
    simp only [ite_eq_right_iff]
    intro hc
    omega
  rw [h0, Nat.zero_add]
  refine (Finset.sum_congr rfl (fun j hj => ?_)).symm
  have hij : i + 1 ≤ j := (Finset.mem_Ico.mp hj).1
  have : (conflictTest gen i j = true) = (i < j ∧ conflictCond gen i j) := by
    rw [conflictTest_iff]
    have : i < j := hij
    simp [this]
  simp only [this]

/-- C1: `evaluate_gen` returns exactly the number of unordered pairs of rows
`(i, j)`, `i < j`, that conflict by column or by diagonal; the two conditions
are mutually exclusive for any single pair; and the fitness of the `N = 4`
board `[1, 3, 0, 2]` is `0`. -/
theorem C1_evaluate_gen_counts_conflict_pairs (gen : Board) :
    evaluate_gen gen = (specConflictPairs gen).card
    ∧ (∀ i j : ℕ, i < j →
        ¬(gen.getD i 0 = gen.getD j 0 ∧
          |(i : ℤ) - (j : ℤ)| = |gen.getD i 0 - gen.getD j 0|))
    ∧ evaluate_gen [1, 3, 0, 2] = 0 := by
  refine ⟨evaluate_gen_eq_card gen, ?_, by decide⟩
  rintro i j hij ⟨h1, h2⟩
  rw [h1, sub_self, abs_zero, abs_eq_zero, sub_eq_zero] at h2
  have : i = j := by exact_mod_cast h2
  omega

/-- Witness for C1: instantiated at concrete boards and a concrete pair. -/
theorem C1_witness :
    evaluate_gen [1, 3, 0, 2] = 0
    ∧ ¬(([0, 0] : Board).getD 0 0 = ([0, 0] : Board).getD 1 0 ∧
        |(0 : ℤ) - (1 : ℤ)| = |([0, 0] : Board).getD 0 0 - ([0, 0] : Board).getD 1 0|) :=
  ⟨(C1_evaluate_gen_counts_conflict_pairs [1, 3, 0, 2]).2.2,
   (C1_evaluate_gen_counts_conflict_pairs [0, 0]).2.1 0 1 (by decide)⟩

/-! ## Fitness bound (C7) -/

theorem evaluate_gen_le (gen : Board) :
    evaluate_gen gen ≤ gen.length * (gen.length - 1) / 2 := by
  set L := gen.length with hL
  have hsum : evaluate_gen gen =
      ∑ i in Finset.range L, (List.range' (i + 1) (L - (i + 1))).countP
        (fun j => conflictTest gen i j) := rfl
  have hgauss : (∑ i in Finset.range L, i) * 2 = L * (L - 1) :=
    Finset.sum_range_id_mul_two L
  have hle : evaluate_gen gen ≤ ∑ i in Finset.range L, (L - 1 - i) := by
    rw [hsum]
    refine Finset.sum_le_sum (fun i _ => ?_)
    refine (List.countP_le_length _).trans ?_
    have : (List.range' (i + 1) (L - (i + 1))).length = L - (i + 1) := by simp
    omega
  have hrefl : ∑ i in Finset.range L, (L - 1 - i) = ∑ i in Finset.range L, i :=
    Finset.sum_range_reflect (fun i => i) L
  omega

theorem evaluate_gen_const (gen : Board) (c : ℤ) (hc : ∀ v ∈ gen, v = c) :
    evaluate_gen gen = gen.length * (gen.length - 1) / 2 := by
  set L := gen.length with hL
  have hsum : evaluate_gen gen =
      ∑ i in Finset.range L, (List.range' (i + 1) (L - (i + 1))).countP
        (fun j => conflictTest gen i j) := rfl
  have hgetD : ∀ i, i < L → gen.getD i 0 = c := by
    intro i hi
    rw [List.getD_eq_getElem gen 0 hi]
    exact hc _ (List.getElem_mem hi)
  have hall : ∀ i ∈ Finset.range L,
      (List.range' (i + 1) (L - (i + 1))).countP (fun j => conflictTest gen i j)
      = L - 1 - i := by
    intro i hi
    have hiL : i < L := Finset.mem_range.mp hi
    have hcount : (List.range' (i + 1) (L - (i + 1))).countP
        (fun j => conflictTest gen i j) = (List.range' (i + 1) (L - (i + 1))).length := by
      rw [List.countP_eq_length]
      intro j hj
      have hjmem := List.mem_range'_1.mp hj
      have hjL : j < L := by omega
      rw [conflictTest_iff, conflictCond]
      left
      rw [hgetD i hiL, hgetD j hjL]
    rw [hcount]
    simp
    omega
  rw [hsum]
  refine (Finset.sum_congr rfl hall).trans ?_
  have hgauss : (∑ i in Finset.range L, i) * 2 = L * (L - 1) :=
    Finset.sum_range_id_mul_two L
  have hrefl : ∑ i in Finset.range L, (L - 1 - i) = ∑ i in Finset.range L, i :=
    Finset.sum_range_reflect (fun i => i) L
  exact hrefl.trans (by omega)

/-- C7: for boards with values in `[0, N-1]` the fitness is a non-negative
integer at most `N*(N-1)/2`, and an all-same-column board attains exactly
`N*(N-1)/2`. -/
theorem C7_fitness_bound (gen : Board)
    (hvals : ∀ v ∈ gen, 0 ≤ v ∧ v < (gen.length : ℤ)) :
    0 ≤ evaluate_gen gen
    ∧ evaluate_gen gen ≤ gen.length * (gen.length - 1) / 2
    ∧ (∀ c : ℤ, (∀ v ∈ gen, v = c) →
        evaluate_gen gen = gen.length * (gen.length - 1) / 2) :=
  ⟨Nat.zero_le _, evaluate_gen_le gen, fun c hc => evaluate_gen_const gen c hc⟩

/-- Witness for C7 at the all-zero `N = 4` board. -/
theorem C7_witness :
    evaluate_gen [0, 0, 0, 0] ≤ 4 * (4 - 1) / 2
    ∧ evaluate_gen ([0, 0, 0, 0] : Board)
      = ([0, 0, 0, 0] : Board).length * (([0, 0, 0, 0] : Board).length - 1) / 2 :=
  ⟨(C7_fitness_bound [0, 0, 0, 0] (by decide)).2.1,
   (C7_fitness_bound [0, 0, 0, 0] (by decide)).2.2 0 (by decide)⟩

/-! ## Recombination (C3) -/

theorem crossoverChildren_length (d : ℕ) :
    ∀ pop : List Board, (crossoverChildren d pop).length = 2 * (pop.length / 2)
  | [] => by simp [crossoverChildren]
  | [_] => by simp [crossoverChildren]
  | a :: b :: rest => by
      have ih := crossoverChildren_length d rest
      simp only [crossoverChildren, List.length_cons] at ih ⊢
      omega

theorem crossoverChildren_getElem (d : ℕ) :
    ∀ (pop : List Board) (k : ℕ) (a b : Board),
      pop[2 * k]? = some a → pop[2 * k + 1]? = some b →
      (crossoverChildren d pop)[2 * k]? = some (a.take d ++ b.drop d) ∧
      (crossoverChildren d pop)[2 * k + 1]? = some (b.take d ++ a.drop d)
  | [], k, a, b => by simp
  | [x], k, a, b => by
      intro _ h2
      have hnone : ([x] : List Board)[2 * k + 1]? = none :=
        List.getElem?_eq_none (by simp)
      rw [hnone] at h2
      exact absurd h2 (by simp)
  | x :: y :: rest, k, a, b => by
      cases k with
      | zero =>
          intro h1 h2
          have e0 : 2 * 0 = 0 := rfl
          rw [e0] at h1 h2 ⊢
          rw [Nat.zero_add] at h2 ⊢
          simp only [List.getElem?_cons_zero] at h1
          simp only [List.getElem?_cons_succ, List.getElem?_cons_zero] at h2
          injection h1 with h1
          injection h2 with h2
          subst h1
          subst h2
          constructor <;> simp [crossoverChildren]
      | succ k =>
          intro h1 h2
          have e1 : 2 * (k + 1) = (2 * k) + 1 + 1 := by ring
          rw [e1] at h1 h2 ⊢
          simp only [List.getElem?_cons_succ] at h1 h2
          simp only [crossoverChildren, List.getElem?_cons_succ]
          exact crossoverChildren_getElem d rest k a b h1 h2

/-- C3: `crossover` returns `M + 2⌊M/2⌋` boards; the first `M` are the
originals in order; each consecutive pair `(2k, 2k+1)` contributes the two
midpoint-spliced children, in order; `M < 2` produces no children. -/
theorem C3_crossover_spec (pop : List Board) (n : ℕ) :
    (crossover pop n).length = pop.length + 2 * (pop.length / 2)
    ∧ (crossover pop n).take pop.length = pop
    ∧ (∀ (k : ℕ) (a b : Board), pop[2 * k]? = some a → pop[2 * k + 1]? = some b →
        (crossover pop n)[pop.length + 2 * k]? = some (a.take (n / 2) ++ b.drop (n / 2)) ∧
        (crossover pop n)[pop.length + 2 * k + 1]? = some (b.take (n / 2) ++ a.drop (n / 2)))
    ∧ (pop.length < 2 → crossover pop n = pop) := by
  refine ⟨?_, ?_, ?_, ?_⟩
  · simp [crossover, crossoverChildren_length]
  · exact List.take_left pop _
  · intro k a b h1 h2
    have hch := crossoverChildren_getElem (n / 2) pop k a b h1 h2
    constructor
    · rw [crossover, List.getElem?_append_right (by omega)]
      have : pop.length + 2 * k - pop.length = 2 * k := by omega
      rw [this]
      exact hch.1
    · rw [crossover, List.getElem?_append_right (by omega)]
      have : pop.length + 2 * k + 1 - pop.length = 2 * k + 1 := by omega
      rw [this]
      exact hch.2
  · intro hlt
    match pop, hlt with
    | [], _ => rfl
    | [x], _ => rfl

/-- Witness for C3 at a concrete three-board population (`M = 3`, `N = 4`)
and at a singleton population. -/
theorem C3_witness :
    (crossover [[1, 2, 3, 4], [5, 6, 7, 8], [9, 9, 9, 9]] 4)[3]?
      = some (([1, 2, 3, 4] : Board).take 2 ++ ([5, 6, 7, 8] : Board).drop 2)
    ∧ crossover [[0, 0]] 2 = [[0, 0]] := by
  constructor
  · exact ((C3_crossover_spec [[1, 2, 3, 4], [5, 6, 7, 8], [9, 9, 9, 9]] 4).2.2.1
      0 [1, 2, 3, 4] [5, 6, 7, 8] (by decide) (by decide)).1
  · exact (C3_crossover_spec [[0, 0]] 2).2.2.2 (by decide)

/-! ## Mutation (C4) -/

theorem getElem?_some_mem {α : Type} {l : List α} {k : ℕ} {a : α}
    (h : l[k]? = some a) : a ∈ l := by
  obtain ⟨hk, rfl⟩ := List.getElem?_eq_some.mp h
  exact List.getElem_mem hk

theorem mem_mutationPool (len i : ℕ) :
    i ∈ mutationPool len ↔ len / 2 ≤ i ∧ i < len := by
  rw [mutationPool, List.mem_range'_1]
  omega

theorem nodup_mutationPool (len : ℕ) : (mutationPool len).Nodup :=
  List.nodup_range' _ _

theorem length_mutationPool (len : ℕ) : (mutationPool len).length = len - len / 2 := by
  simp [mutationPool]

theorem chosenCount_zero (len : ℕ) : chosenCount len 0 = 0 := by
  simp [chosenCount]

theorem chosenCount_one (len : ℕ) : chosenCount len 1 = len := by
  simp [chosenCount]

theorem chosenCount_le (len : ℕ) (r : ℚ) (h1 : r ≤ 1) : chosenCount len r ≤ len := by
  rw [chosenCount]
  have h2 : (len : ℚ) * r ≤ (len : ℚ) * 1 :=
    mul_le_mul_of_nonneg_left h1 (by positivity)
  rw [mul_one] at h2
  have h3 : ⌊(len : ℚ) * r⌋ ≤ ⌊(len : ℚ)⌋ := Int.floor_le_floor h2
  rw [Int.floor_natCast] at h3
  exact Int.toNat_le.mpr h3

theorem foldl_mutateAt_getElem_ne (l : List (ℕ × ℕ × ℤ)) :
    ∀ (pop : List Board) (j : ℕ), (∀ t ∈ l, t.1 ≠ j) →
      (l.foldl (fun p t => mutateAt p t.1 t.2.1 t.2.2) pop)[j]? = pop[j]? := by
  induction l with
  | nil => intro pop j _; rfl
  | cons t ts ih =>
      intro pop j hne
      rw [List.foldl_cons]
      rw [ih (mutateAt pop t.1 t.2.1 t.2.2) j (fun u hu => hne u (List.mem_cons_of_mem t hu))]
      exact List.getElem?_set_ne (hne t (List.mem_cons_self t ts))

theorem foldl_mutateAt_getElem_eq (l : List (ℕ × ℕ × ℤ)) :
    ∀ (pop : List Board) (i c : ℕ) (v : ℤ),
      (i, c, v) ∈ l → (l.map Prod.fst).Nodup →
      (l.foldl (fun p t => mutateAt p t.1 t.2.1 t.2.2) pop)[i]?
        = (pop[i]?).map (fun b => b.set c v) := by
  induction l with
  | nil => intro pop i c v hmem _; exact absurd hmem (List.not_mem_nil _)
  | cons t ts ih =>
      intro pop i c v hmem hnd
      rw [List.map_cons, List.nodup_cons] at hnd
      rcases List.mem_cons.mp hmem with rfl | hmem'
      · rw [List.foldl_cons]
        have hne : ∀ u ∈ ts, u.1 ≠ i := by
          intro u hu hui
          have hmm : u.1 ∈ List.map Prod.fst ts := List.mem_map_of_mem Prod.fst hu
          rw [hui] at hmm
          exact hnd.1 hmm
        rw [foldl_mutateAt_getElem_ne ts _ i hne]
        by_cases hi : i < pop.length
        · rw [mutateAt, List.getElem?_set_eq_of_lt _ hi,
            List.getElem?_eq_getElem hi, Option.map_some']
          rw [List.getD_eq_getElem pop [] hi]
        · have hlen : pop.length ≤ i := Nat.le_of_not_lt hi
          rw [mutateAt, List.set_eq_of_length_le hlen,
            List.getElem?_eq_none hlen, Option.map_none']
      · have hne1 : t.1 ≠ i := by
          intro hti
          have hmm : i ∈ List.map Prod.fst ts :=
            List.mem_map_of_mem Prod.fst hmem'
          rw [← hti] at hmm
          exact hnd.1 hmm
        rw [List.foldl_cons, ih (mutateAt pop t.1 t.2.1 t.2.2) i c v hmem' hnd.2]
        rw [mutateAt, List.getElem?_set_ne hne1]

/-- C4: the candidate index pool of `mutation` is exactly
`{L/2, …, L-1}`; exactly `⌊R·|pool|⌋` distinct pool indices are mutated;
an unchosen index keeps its board, the board of the `k`-th chosen index
has exactly the cell given by the `k`-th random `(col, val)` draw
overwritten; `R = 0` leaves the population value-for-value identical;
`R = 1` selects every index of the pool. -/
theorem C4_mutation_spec (pop : List Board) (r : ℚ) (shuffled : List ℕ)
    (cv : List (ℕ × ℤ)) (hr0 : 0 ≤ r) (hr1 : r ≤ 1)
    (hsh : shuffled.Perm (mutationPool pop.length))
    (hcv : (chosenIndices shuffled r).length ≤ cv.length) :
    (∀ i, i ∈ mutationPool pop.length ↔ pop.length / 2 ≤ i ∧ i < pop.length)
    ∧ (chosenIndices shuffled r).length = chosenCount (mutationPool pop.length).length r
    ∧ (chosenIndices shuffled r).Nodup
    ∧ (∀ i ∈ chosenIndices shuffled r, i ∈ mutationPool pop.length)
    ∧ (∀ j, j ∉ chosenIndices shuffled r →
        (mutation pop r shuffled cv)[j]? = pop[j]?)
    ∧ (∀ (k i c : ℕ) (v : ℤ), (chosenIndices shuffled r)[k]? = some i →
        cv[k]? = some (c, v) →
        (mutation pop r shuffled cv)[i]? = (pop[i]?).map (fun b => b.set c v))
    ∧ mutation pop 0 shuffled cv = pop
    ∧ (∀ i ∈ mutationPool pop.length, i ∈ chosenIndices shuffled 1) := by
  have hlen : shuffled.length = (mutationPool pop.length).length := hsh.length_eq
  have hnd : shuffled.Nodup := hsh.nodup_iff.mpr (nodup_mutationPool _)
  have hchsub : (chosenIndices shuffled r).Sublist shuffled := List.take_sublist _ _
  have hchnd : (chosenIndices shuffled r).Nodup := hchsub.nodup hnd
  have hchmem : ∀ i ∈ chosenIndices shuffled r, i ∈ mutationPool pop.length :=
    fun i hi => hsh.mem_iff.mp (hchsub.subset hi)
  have hmapfst : ((chosenIndices shuffled r).zip cv).map Prod.fst
      = chosenIndices shuffled r := List.map_fst_zip _ _ hcv
  refine ⟨fun i => mem_mutationPool pop.length i, ?_, hchnd, hchmem, ?_, ?_, ?_, ?_⟩
  · rw [chosenIndices, List.length_take, hlen]
    exact Nat.min_eq_left (hlen ▸ chosenCount_le shuffled.length r hr1)
  · intro j hj
    refine foldl_mutateAt_getElem_ne _ pop j (fun t ht => ?_)
    intro htj
    have : t.1 ∈ chosenIndices shuffled r := by
      rw [← hmapfst]
      exact List.mem_map_of_mem Prod.fst ht
    exact hj (htj ▸ this)
  · intro k i c v hk hcvk
    have hzip : ((chosenIndices shuffled r).zip cv)[k]? = some (i, (c, v)) := by
      rw [List.getElem?_zip_eq_some]
      exact ⟨hk, hcvk⟩
    have hmem : (i, c, v) ∈ (chosenIndices shuffled r).zip cv := getElem?_some_mem hzip
    have hnd2 : (((chosenIndices shuffled r).zip cv).map Prod.fst).Nodup := by
      rw [hmapfst]; exact hchnd
    exact foldl_mutateAt_getElem_eq _ pop i c v hmem hnd2
  · rw [mutation, chosenIndices, chosenCount_zero, List.take_zero, List.zip_nil_left,
      List.foldl_nil]
  · intro i hi
    rw [chosenIndices, chosenCount_one, List.take_length]
    exact hsh.mem_iff.mpr hi

/-- Witness for C4: a two-board population, rate `1`, shuffled pool `[1]`,
one random draw `(0, 9)`; index `1` gets cell `0` overwritten with `9`. -/
theorem C4_witness :
    (mutation [[1, 2], [3, 4]] 1 [1] [(0, 9)])[1]?
      = (([[1, 2], [3, 4]] : List Board)[1]?).map (fun b => b.set 0 9)
    ∧ mutation [[1, 2], [3, 4]] 0 [1] [(0, 9)] = [[1, 2], [3, 4]] := by
  have h := C4_mutation_spec [[1, 2], [3, 4]] 1 [1] [(0, 9)]
    (by norm_num) (by norm_num) (by decide)
    (by simp [chosenIndices, chosenCount_one])
  exact ⟨h.2.2.2.2.2.1 0 1 0 9 (by simp [chosenIndices, chosenCount_one]) rfl,
    h.2.2.2.2.2.2.1⟩

/-! ## Selection (C2, C10) -/

theorem eliminate_cases (pop : List Board) (scores : List ℕ) (P : ℕ)
    (hne : scores.zip pop ≠ []) :
    ∃ (s : ℕ) (b : Board) (rest : List (ℕ × Board)),
      List.insertionSort scoreLE (scores.zip pop) = (s, b) :: rest ∧
      ((s = 0 ∧ eliminate pop scores P = some ([b], [0])) ∨
       (s ≠ 0 ∧ eliminate pop scores P =
         some ((((s, b) :: rest).take P).map (fun x => x.2),
               (((s, b) :: rest).take P).map (fun x => x.1)))) := by
  cases hsort : List.insertionSort scoreLE (scores.zip pop) with
  | nil =>
      exact absurd ((List.perm_insertionSort scoreLE _).symm.trans
        (hsort ▸ List.Perm.refl _)).eq_nil hne
  | cons hd tl =>
      obtain ⟨s, b⟩ := hd
      refine ⟨s, b, tl, rfl, ?_⟩
      by_cases hs : s = 0
      · refine Or.inl ⟨hs, ?_⟩
        unfold eliminate
        rw [hsort]
        simp [hs]
      · refine Or.inr ⟨hs, ?_⟩
        unfold eliminate
        rw [hsort]
        simp [hs]

/-- C2: `eliminate` sorts by score: the returned score sequence is sorted
ascending, parallel to the returned boards, drawn from the input scores,
and its first entry is a minimum of all input scores; a zero minimum
short-circuits to a single zero-scored board with score sequence `[0]`;
otherwise at most `P` boards survive.  Each returned board keeps its own
score — the returned `(score, board)` pairs are a sub-permutation of the
input pairs — and in the non-zero case the returned scores are exactly
the `P` lowest input scores with multiplicity (the first `P` entries of
the ascending sort of the input scores). -/
theorem C2_eliminate_spec (pop : List Board) (scores : List ℕ) (P : ℕ)
    (hlen : scores.length = pop.length) (hne : pop ≠ []) (hP : 1 ≤ P) :
    ∃ (pop' : List Board) (scores' : List ℕ),
      eliminate pop scores P = some (pop', scores')
      ∧ List.Sorted (· ≤ ·) scores'
      ∧ scores'.length = pop'.length
      ∧ (∀ sc ∈ scores', sc ∈ scores)
      ∧ (∀ m, scores'.head? = some m → ∀ sc ∈ scores, m ≤ sc)
      ∧ (0 ∈ scores → ∃ b, pop' = [b] ∧ scores' = [0] ∧ (0, b) ∈ scores.zip pop)
      ∧ (0 ∉ scores → pop'.length ≤ P)
      ∧ List.Subperm (scores'.zip pop') (scores.zip pop)
      ∧ (0 ∉ scores → scores' = (List.insertionSort (· ≤ ·) scores).take P) := by
  have hzipne : scores.zip pop ≠ [] := by
    intro h
    have h1 : (scores.zip pop).length = min scores.length pop.length :=
      List.length_zip scores pop
    rw [h] at h1
    have h2 : pop.length ≠ 0 := fun h0 => hne (List.length_eq_zero.mp h0)
    simp at h1
    omega
  obtain ⟨s, b, rest, hsort, hbranch⟩ := eliminate_cases pop scores P hzipne
  have hperm : ((s, b) :: rest).Perm (scores.zip pop) :=
    hsort ▸ List.perm_insertionSort scoreLE _
  have hsorted : List.Sorted scoreLE ((s, b) :: rest) :=
    hsort ▸ List.sorted_insertionSort scoreLE _
  have hfst : (scores.zip pop).map Prod.fst = scores :=
    List.map_fst_zip scores pop (le_of_eq hlen)
  have hmin : ∀ sc ∈ scores, s ≤ sc := by
    intro sc hsc
    rw [← hfst] at hsc
    obtain ⟨t, ht, rfl⟩ := List.mem_map.mp hsc
    rcases List.mem_cons.mp (hperm.mem_iff.mpr ht) with rfl | ht'
    · exact le_refl _
    · exact (List.sorted_cons.mp hsorted).1 t ht'
  have hmem_scores : ∀ t ∈ (s, b) :: rest, t.1 ∈ scores := by
    intro t ht
    rw [← hfst]
    exact List.mem_map_of_mem Prod.fst (hperm.mem_iff.mp ht)
  have hs_mem : s ∈ scores := hmem_scores (s, b) (List.mem_cons_self _ _)
  rcases hbranch with ⟨hs0, helim⟩ | ⟨hs0, helim⟩
  · subst hs0
    refine ⟨[b], [0], helim, List.sorted_singleton 0, rfl, ?_, ?_, ?_, ?_, ?_, ?_⟩
    · intro sc hsc
      rw [List.mem_singleton.mp hsc]
      exact hs_mem
    · intro m hm
      injection hm with hm
      subst hm
      exact fun sc _ => Nat.zero_le sc
    · intro _
      exact ⟨b, rfl, rfl, hperm.mem_iff.mp (List.mem_cons_self _ _)⟩
    · intro h0
      exact absurd hs_mem h0
    · exact (List.singleton_sublist.mpr
        (hperm.mem_iff.mp (List.mem_cons_self _ _))).subperm
    · intro h0
      exact absurd hs_mem h0
  · obtain ⟨P', rfl⟩ : ∃ P', P = P' + 1 := ⟨P - 1, by omega⟩
    refine ⟨(((s, b) :: rest).take (P' + 1)).map (fun x => x.2),
      (((s, b) :: rest).take (P' + 1)).map (fun x => x.1), helim, ?_, by simp,
      ?_, ?_, ?_, ?_, ?_, ?_⟩
    · exact List.Pairwise.map _ (fun t u htu => htu)
        ((List.Pairwise.sublist (List.take_sublist _ _) hsorted))
    · intro sc hsc
      obtain ⟨t, ht, rfl⟩ := List.mem_map.mp hsc
      exact hmem_scores t ((List.take_sublist _ _).subset ht)
    · intro m hm
      rw [List.take_succ_cons, List.map_cons, List.head?_cons] at hm
      injection hm with hm
      subst hm
      exact hmin
    · intro h0
      exact absurd (Nat.le_zero.mp (hmin 0 h0)) hs0
    · intro _
      simp [List.length_take]
    · have hpairs : ((((s, b) :: rest).take (P' + 1)).map (fun x => x.1)).zip
          ((((s, b) :: rest).take (P' + 1)).map (fun x => x.2))
          = ((s, b) :: rest).take (P' + 1) := by
        rw [List.zip_map']
        simp
      rw [hpairs]
      exact (List.take_sublist _ _).subperm.trans hperm.subperm
    · intro _
      have hcfst : ((s, b) :: rest).map (fun x => x.1)
          = List.insertionSort (· ≤ ·) scores := by
        refine List.eq_of_perm_of_sorted ?_ ?_ (List.sorted_insertionSort _ _)
        · refine (hperm.map (fun x => x.1)).trans ?_
          have hfst' : (scores.zip pop).map (fun x : ℕ × Board => x.1) = scores :=
            List.map_fst_zip scores pop (le_of_eq hlen)
          rw [hfst']
          exact (List.perm_insertionSort _ scores).symm
        · exact List.Pairwise.map _ (fun t u htu => htu) hsorted
      rw [List.map_take, hcfst]

/-- Witness for C2: two boards with scores `[2, 1]`, target size `1`. -/
theorem C2_witness :
    ∃ (pop' : List Board) (scores' : List ℕ),
      eliminate [[0, 0], [1, 3]] [2, 1] 1 = some (pop', scores')
      ∧ List.Sorted (· ≤ ·) scores'
      ∧ scores'.length = pop'.length
      ∧ (∀ sc ∈ scores', sc ∈ [2, 1])
      ∧ (∀ m, scores'.head? = some m → ∀ sc ∈ [2, 1], m ≤ sc)
      ∧ ((0 : ℕ) ∈ [2, 1] →
          ∃ b, pop' = [b] ∧ scores' = [0]
            ∧ ((0 : ℕ), b) ∈ ([2, 1].zip [[0, 0], [1, 3]] : List (ℕ × Board)))
      ∧ ((0 : ℕ) ∉ [2, 1] → pop'.length ≤ 1)
      ∧ List.Subperm (scores'.zip pop')
          (([2, 1] : List ℕ).zip [[0, 0], [1, 3]])
      ∧ ((0 : ℕ) ∉ [2, 1] →
          scores' = (List.insertionSort (· ≤ ·) [2, 1]).take 1) :=
  C2_eliminate_spec [[0, 0], [1, 3]] [2, 1] 1 rfl (by simp) (le_refl 1)

theorem zip_fitness_mem :
    ∀ (pop : List Board) (t : ℕ × Board),
      t ∈ (fitness pop).zip pop → t.1 = evaluate_gen t.2
  | [], t, h => absurd h (List.not_mem_nil t)
  | b :: bs, t, h => by
      rw [fitness, List.map_cons, List.zip_cons_cons] at h
      rcases List.mem_cons.mp h with rfl | h'
      · rfl
      · exact zip_fitness_mem bs t h'

/-- C10: when the input scores are the fitness of the input boards,
the two sequences `eliminate` returns have equal length and stay pairwise
consistent: the returned scores are exactly the fitness of the returned
boards (in particular, the short-circuit `[0]` is the fitness of the
single returned board). -/
theorem C10_eliminate_consistency (pop : List Board) (P : ℕ)
    (pop' : List Board) (scores' : List ℕ)
    (helim : eliminate pop (fitness pop) P = some (pop', scores')) :
    scores'.length = pop'.length ∧ scores' = fitness pop' := by
  by_cases hzip : (fitness pop).zip pop = []
  · have hnone : eliminate pop (fitness pop) P = none := by
      unfold eliminate
      rw [hzip]
      rfl
    rw [hnone] at helim
    exact absurd helim (by simp)
  · obtain ⟨s, b, rest, hsort, hbranch⟩ := eliminate_cases pop (fitness pop) P hzip
    have hperm : ((s, b) :: rest).Perm ((fitness pop).zip pop) :=
      hsort ▸ List.perm_insertionSort scoreLE _
    have hpair : ∀ t ∈ (s, b) :: rest, t.1 = evaluate_gen t.2 :=
      fun t ht => zip_fitness_mem pop t (hperm.mem_iff.mp ht)
    rcases hbranch with ⟨hs0, helim'⟩ | ⟨hs0, helim'⟩
    · have heq : (([b], ([0] : List ℕ)) : List Board × List ℕ) = (pop', scores') :=
        Option.some.inj (helim'.symm.trans helim)
      have hpop : pop' = [b] := (congrArg Prod.fst heq).symm
      have hsc : scores' = [0] := (congrArg Prod.snd heq).symm
      subst hpop
      subst hsc
      have hsb : s = evaluate_gen b := hpair (s, b) (List.mem_cons_self _ _)
      refine ⟨rfl, ?_⟩
      rw [fitness, List.map_cons, List.map_nil, ← hsb, hs0]
    · have heq : ((((s, b) :: rest).take P).map (fun x => x.2),
          (((s, b) :: rest).take P).map (fun x => x.1)) = (pop', scores') :=
        Option.some.inj (helim'.symm.trans helim)
      have hpop : pop' = (((s, b) :: rest).take P).map (fun x => x.2) :=
        (congrArg Prod.fst heq).symm
      have hsc : scores' = (((s, b) :: rest).take P).map (fun x => x.1) :=
        (congrArg Prod.snd heq).symm
      subst hpop
      subst hsc
      refine ⟨by simp, ?_⟩
      rw [fitness, List.map_map]
      refine List.map_congr_left (fun t ht => ?_)
      exact hpair t ((List.take_sublist _ _).subset ht)

/-- Witness for C10: two one-conflict boards, target size `1`. -/
theorem C10_witness :
    ([1] : List ℕ).length = ([[0, 1]] : List Board).length
    ∧ ([1] : List ℕ) = fitness [[0, 1]] :=
  C10_eliminate_consistency [[0, 1], [1, 1]] 1 [[0, 1]] [1] (by decide)

/-! ## The board invariant (C8) -/

theorem mem_crossoverChildren (d : ℕ) :
    ∀ (pop : List Board) (c : Board), c ∈ crossoverChildren d pop →
      ∃ a b, a ∈ pop ∧ b ∈ pop ∧
        (c = a.take d ++ b.drop d ∨ c = b.take d ++ a.drop d)
  | [], c, hc => absurd hc (by simp [crossoverChildren])
  | [x], c, hc => absurd hc (by simp [crossoverChildren])
  | a :: b :: rest, c, hc => by
      rw [crossoverChildren] at hc
      rcases List.mem_cons.mp hc with rfl | hc'
      · exact ⟨a, b, by simp, by simp, Or.inl rfl⟩
      rcases List.mem_cons.mp hc' with rfl | hc''
      · exact ⟨a, b, by simp, by simp, Or.inr rfl⟩
      obtain ⟨a', b', ha', hb', heq⟩ := mem_crossoverChildren d rest c hc''
      exact ⟨a', b', List.mem_cons_of_mem _ (List.mem_cons_of_mem _ ha'),
        List.mem_cons_of_mem _ (List.mem_cons_of_mem _ hb'), heq⟩

theorem boardInv_splice {n : ℕ} {a b : Board} (d : ℕ) (hd : d ≤ n)
    (ha : boardInv n a) (hb : boardInv n b) :
    boardInv n (a.take d ++ b.drop d) := by
  constructor
  · rw [List.length_append, List.length_take, List.length_drop, ha.1, hb.1]
    omega
  · intro v hv
    rcases List.mem_append.mp hv with h | h
    · exact ha.2 v (List.mem_of_mem_take h)
    · exact hb.2 v (List.mem_of_mem_drop h)

theorem boardInv_mutateAt {n : ℕ} {pop : List Board} (i c : ℕ) (v : ℤ)
    (hv : 0 ≤ v ∧ v < (n : ℤ)) (hpop : ∀ b ∈ pop, boardInv n b) :
    ∀ b ∈ mutateAt pop i c v, boardInv n b := by
  intro b hb
  by_cases hi : i < pop.length
  · rcases List.mem_or_eq_of_mem_set hb with h | rfl
    · exact hpop b h
    · have hbi : boardInv n (pop.getD i []) := by
        rw [List.getD_eq_getElem pop [] hi]
        exact hpop _ (List.getElem_mem hi)
      constructor
      · rw [List.length_set]
        exact hbi.1
      · intro w hw
        rcases List.mem_or_eq_of_mem_set hw with h | rfl
        · exact hbi.2 w h
        · exact hv
  · rw [mutateAt, List.set_eq_of_length_le (Nat.le_of_not_lt hi)] at hb
    exact hpop b hb

theorem foldl_mutateAt_inv (n : ℕ) :
    ∀ (l : List (ℕ × ℕ × ℤ)) (pop : List Board),
      (∀ b ∈ pop, boardInv n b) → (∀ t ∈ l, 0 ≤ t.2.2 ∧ t.2.2 < (n : ℤ)) →
      ∀ b ∈ l.foldl (fun p t => mutateAt p t.1 t.2.1 t.2.2) pop, boardInv n b
  | [], pop, hpop, _ => hpop
  | t :: ts, pop, hpop, hval => by
      rw [List.foldl_cons]
      exact foldl_mutateAt_inv n ts _
        (boardInv_mutateAt t.1 t.2.1 t.2.2 (hval t (List.mem_cons_self t ts)) hpop)
        (fun u hu => hval u (List.mem_cons_of_mem t hu))

theorem eliminate_boards_subset (pop : List Board) (scores : List ℕ) (P : ℕ)
    (pop' : List Board) (scores' : List ℕ)
    (helim : eliminate pop scores P = some (pop', scores')) :
    ∀ b ∈ pop', b ∈ pop := by
  by_cases hzip : scores.zip pop = []
  · have hnone : eliminate pop scores P = none := by
      unfold eliminate
      rw [hzip]
      rfl
    rw [hnone] at helim
    exact absurd helim (by simp)
  · obtain ⟨s, b, rest, hsort, hbranch⟩ := eliminate_cases pop scores P hzip
    have hperm : ((s, b) :: rest).Perm (scores.zip pop) :=
      hsort ▸ List.perm_insertionSort scoreLE _
    have hsnd : ∀ t ∈ (s, b) :: rest, t.2 ∈ pop :=
      fun t ht => (List.of_mem_zip (hperm.mem_iff.mp ht)).2
    rcases hbranch with ⟨_, helim'⟩ | ⟨_, helim'⟩
    · have heq : (([b], ([0] : List ℕ)) : List Board × List ℕ) = (pop', scores') :=
        Option.some.inj (helim'.symm.trans helim)
      have hpop' : pop' = [b] := (congrArg Prod.fst heq).symm
      subst hpop'
      intro c hc
      rw [List.mem_singleton.mp hc]
      exact hsnd (s, b) (List.mem_cons_self _ _)
    · have heq : ((((s, b) :: rest).take P).map (fun x => x.2),
          (((s, b) :: rest).take P).map (fun x => x.1)) = (pop', scores') :=
        Option.some.inj (helim'.symm.trans helim)
      have hpop' : pop' = (((s, b) :: rest).take P).map (fun x => x.2) :=
        (congrArg Prod.fst heq).symm
      subst hpop'
      intro c hc
      obtain ⟨t, ht, rfl⟩ := List.mem_map.mp hc
      exact hsnd t ((List.take_sublist _ _).subset ht)

/-- C8: the board invariant (length `N`, values in `[0, N-1]`) is
established by population construction and preserved by recombination,
mutation and selection; no stage forces the values within a board to be
distinct (an all-zero board is constructible). -/
theorem C8_board_invariant :
    (∀ (P n : ℕ) (rand : ℕ → ℕ → ℤ), 1 ≤ P → 1 ≤ n →
      (∀ bi k, 0 ≤ rand bi k ∧ rand bi k ≤ (n : ℤ) - 1) →
      ∀ b ∈ build_population P n rand, boardInv n b)
    ∧ (∀ (n : ℕ) (pop : List Board), (∀ b ∈ pop, boardInv n b) →
        ∀ b ∈ crossover pop n, boardInv n b)
    ∧ (∀ (n : ℕ) (pop : List Board) (r : ℚ) (sh : List ℕ) (cv : List (ℕ × ℤ)),
        (∀ b ∈ pop, boardInv n b) → (∀ p ∈ cv, 0 ≤ p.2 ∧ p.2 < (n : ℤ)) →
        ∀ b ∈ mutation pop r sh cv, boardInv n b)
    ∧ (∀ (n P : ℕ) (pop : List Board) (scores : List ℕ)
        (pop' : List Board) (scores' : List ℕ),
        (∀ b ∈ pop, boardInv n b) → eliminate pop scores P = some (pop', scores') →
        ∀ b ∈ pop', boardInv n b)
    ∧ (build_population 1 4 (fun _ _ => 0) = [[0, 0, 0, 0]]
        ∧ ¬ ([0, 0, 0, 0] : Board).Nodup) := by
  refine ⟨?_, ?_, ?_, ?_, by decide, by decide⟩
  · intro P n rand _ _ hrand b hb
    obtain ⟨bi, _, rfl⟩ := List.mem_map.mp hb
    constructor
    · simp
    · intro v hv
      obtain ⟨k, _, rfl⟩ := List.mem_map.mp hv
      obtain ⟨h1, h2⟩ := hrand bi k
      exact ⟨h1, by omega⟩
  · intro n pop hpop b hb
    rcases List.mem_append.mp hb with h | h
    · exact hpop b h
    · obtain ⟨a, b', ha, hb', heq⟩ := mem_crossoverChildren (n / 2) pop b h
      rcases heq with rfl | rfl
      · exact boardInv_splice (n / 2) (Nat.div_le_self n 2) (hpop a ha) (hpop b' hb')
      · exact boardInv_splice (n / 2) (Nat.div_le_self n 2) (hpop b' hb') (hpop a ha)
  · intro n pop r sh cv hpop hcv b hb
    refine foldl_mutateAt_inv n _ pop hpop (fun t ht => ?_) b hb
    exact hcv t.2 (List.of_mem_zip ht).2
  · intro n P pop scores pop' scores' hpop helim b hb
    exact hpop b (eliminate_boards_subset pop scores P pop' scores' helim b hb)

/-- Witness for C8: a concrete constructed population (`P = 1`, `N = 4`,
all draws `0`) satisfies the invariant; the same run shows values need
not be distinct. -/
theorem C8_witness :
    (∀ b ∈ build_population 1 4 (fun _ _ => 0), boardInv 4 b)
    ∧ ¬ ([0, 0, 0, 0] : Board).Nodup :=
  ⟨C8_board_invariant.1 1 4 (fun _ _ => 0) (le_refl 1) (by omega)
      (fun _ _ => by norm_num),
   C8_board_invariant.2.2.2.2.2⟩

/-! ## The outer loop (C5, C6, C9) -/

theorem foldl_mutateAt_length (l : List (ℕ × ℕ × ℤ)) :
    ∀ pop : List Board,
      (l.foldl (fun p t => mutateAt p t.1 t.2.1 t.2.2) pop).length = pop.length := by
  induction l with
  | nil => intro pop; rfl
  | cons t ts ih =>
      intro pop
      rw [List.foldl_cons, ih, mutateAt, List.length_set]

theorem mutation_length (pop : List Board) (r : ℚ) (sh : List ℕ)
    (cv : List (ℕ × ℤ)) : (mutation pop r sh cv).length = pop.length :=
  foldl_mutateAt_length _ pop

theorem crossover_ne_nil (pop : List Board) (n : ℕ) (hne : pop ≠ []) :
    crossover pop n ≠ [] := by
  rw [crossover]
  intro h
  exact hne (List.append_eq_nil.mp h).1

theorem mutation_ne_nil (pop : List Board) (r : ℚ) (sh : List ℕ)
    (cv : List (ℕ × ℤ)) (hne : pop ≠ []) : mutation pop r sh cv ≠ [] := by
  intro h
  have h1 := mutation_length pop r sh cv
  rw [h] at h1
  exact hne (List.length_eq_zero.mp h1.symm)

theorem gaLoop_succ (n P : ℕ) (r : ℚ) (shuffles : ℕ → List ℕ)
    (cvs : ℕ → List (ℕ × ℤ)) (fuel g : ℕ) (pop : List Board) :
    gaLoop n P r shuffles cvs (fuel + 1) g pop =
      match eliminate (mutation (crossover pop n) r (shuffles g) (cvs g))
          (fitness (mutation (crossover pop n) r (shuffles g) (cvs g))) P with
      | none => none
      | some (pop', scores') =>
          if 0 ∈ scores' then some (pop', some (g + 1))
          else gaLoop n P r shuffles cvs fuel (g + 1) pop' := rfl

theorem eliminate_ne_nil (pop : List Board) (scores : List ℕ) (P : ℕ)
    (pop' : List Board) (scores' : List ℕ) (hP : 1 ≤ P)
    (helim : eliminate pop scores P = some (pop', scores')) : pop' ≠ [] := by
  by_cases hzip : scores.zip pop = []
  · have hnone : eliminate pop scores P = none := by
      unfold eliminate
      rw [hzip]
      rfl
    rw [hnone] at helim
    exact absurd helim (by simp)
  · obtain ⟨s, b, rest, _, hbranch⟩ := eliminate_cases pop scores P hzip
    rcases hbranch with ⟨_, helim'⟩ | ⟨_, helim'⟩
    · have heq : (([b], ([0] : List ℕ)) : List Board × List ℕ) = (pop', scores') :=
        Option.some.inj (helim'.symm.trans helim)
      have hpop' : pop' = [b] := (congrArg Prod.fst heq).symm
      rw [hpop']
      exact List.cons_ne_nil b []
    · have heq : ((((s, b) :: rest).take P).map (fun x => x.2),
          (((s, b) :: rest).take P).map (fun x => x.1)) = (pop', scores') :=
        Option.some.inj (helim'.symm.trans helim)
      have hpop' : pop' = (((s, b) :: rest).take P).map (fun x => x.2) :=
        (congrArg Prod.fst heq).symm
      obtain ⟨P', rfl⟩ : ∃ P', P = P' + 1 := ⟨P - 1, by omega⟩
      rw [hpop', List.take_succ_cons, List.map_cons]
      exact List.cons_ne_nil _ _

theorem eliminate_zero_mem (pop : List Board) (scores : List ℕ) (P : ℕ)
    (pop' : List Board) (scores' : List ℕ)
    (hlen : scores.length = pop.length)
    (helim : eliminate pop scores P = some (pop', scores'))
    (h0 : 0 ∈ scores') :
    scores' = [0] ∧ ∃ b, pop' = [b] ∧ (0, b) ∈ scores.zip pop := by
  by_cases hzip : scores.zip pop = []
  · have hnone : eliminate pop scores P = none := by
      unfold eliminate
      rw [hzip]
      rfl
    rw [hnone] at helim
    exact absurd helim (by simp)
  · obtain ⟨s, b, rest, hsort, hbranch⟩ := eliminate_cases pop scores P hzip
    have hperm : ((s, b) :: rest).Perm (scores.zip pop) :=
      hsort ▸ List.perm_insertionSort scoreLE _
    have hsorted : List.Sorted scoreLE ((s, b) :: rest) :=
      hsort ▸ List.sorted_insertionSort scoreLE _
    rcases hbranch with ⟨hs0, helim'⟩ | ⟨hs0, helim'⟩
    · have heq : (([b], ([0] : List ℕ)) : List Board × List ℕ) = (pop', scores') :=
        Option.some.inj (helim'.symm.trans helim)
      refine ⟨(congrArg Prod.snd heq).symm, b, (congrArg Prod.fst heq).symm, ?_⟩
      rw [← hs0]
      exact hperm.mem_iff.mp (List.mem_cons_self _ _)
    · have heq : ((((s, b) :: rest).take P).map (fun x => x.2),
          (((s, b) :: rest).take P).map (fun x => x.1)) = (pop', scores') :=
        Option.some.inj (helim'.symm.trans helim)
      have hsc : scores' = (((s, b) :: rest).take P).map (fun x => x.1) :=
        (congrArg Prod.snd heq).symm
      rw [hsc] at h0
      obtain ⟨t, ht, ht0⟩ := List.mem_map.mp h0
      have htc : t ∈ (s, b) :: rest := (List.take_sublist _ _).subset ht
      have hle : s ≤ t.1 := by
        rcases List.mem_cons.mp htc with rfl | ht'
        · exact le_refl _
        · exact (List.sorted_cons.mp hsorted).1 t ht'
      rw [ht0] at hle
      exact absurd (Nat.le_zero.mp hle) hs0

theorem eliminate_fitness_headMin (pop : List Board) (P : ℕ)
    (pop' : List Board) (scores' : List ℕ) (hP : 1 ≤ P)
    (helim : eliminate pop (fitness pop) P = some (pop', scores')) :
    ∃ b0, pop'.head? = some b0 ∧ ∀ c ∈ pop', evaluate_gen b0 ≤ evaluate_gen c := by
  have hpopne : pop ≠ [] := by
    intro h
    subst h
    have hnone : eliminate [] (fitness []) P = none := rfl
    rw [hnone] at helim
    exact absurd helim (by simp)
  obtain ⟨pop'', scores'', helim'', hsorted, _, _, _, _, _, _, _⟩ :=
    C2_eliminate_spec pop (fitness pop) P (by simp [fitness]) hpopne hP
  have heq : (pop'', scores'') = (pop', scores') :=
    Option.some.inj (helim''.symm.trans helim)
  have h1 : pop'' = pop' := congrArg Prod.fst heq
  have h2 : scores'' = scores' := congrArg Prod.snd heq
  subst h1
  subst h2
  have hfit : scores'' = fitness pop'' :=
    (C10_eliminate_consistency pop P pop'' scores'' helim).2
  have hne' : pop'' ≠ [] := eliminate_ne_nil pop (fitness pop) P pop'' scores'' hP helim
  obtain ⟨b0, rest', rfl⟩ := List.exists_cons_of_ne_nil hne'
  refine ⟨b0, rfl, ?_⟩
  rw [hfit, fitness, List.map_cons] at hsorted
  intro c hc
  rcases List.mem_cons.mp hc with rfl | hc'
  · exact le_refl _
  · exact (List.sorted_cons.mp hsorted).1 (evaluate_gen c)
      (List.mem_map_of_mem evaluate_gen hc')

theorem gaLoop_spec (n P : ℕ) (r : ℚ) (shuffles : ℕ → List ℕ)
    (cvs : ℕ → List (ℕ × ℤ)) (hP : 1 ≤ P) :
    ∀ (fuel g : ℕ) (pop : List Board), pop ≠ [] →
      (fuel = 0 → ∃ b0, pop.head? = some b0 ∧
        ∀ c ∈ pop, evaluate_gen b0 ≤ evaluate_gen c) →
      ∃ (finalPop : List Board) (res : Option ℕ),
        gaLoop n P r shuffles cvs fuel g pop = some (finalPop, res)
        ∧ finalPop ≠ []
        ∧ ((∃ b g', res = some g' ∧ finalPop = [b] ∧ evaluate_gen b = 0
              ∧ g + 1 ≤ g' ∧ g' ≤ g + fuel)
           ∨ (res = none ∧ ∃ b0, finalPop.head? = some b0 ∧
                ∀ c ∈ finalPop, evaluate_gen b0 ≤ evaluate_gen c)) := by
  intro fuel
  induction fuel with
  | zero =>
      intro g pop hne hmin
      exact ⟨pop, none, rfl, hne, Or.inr ⟨rfl, hmin rfl⟩⟩
  | succ fuel ih =>
      intro g pop hne _
      set pop2 := mutation (crossover pop n) r (shuffles g) (cvs g) with hpop2
      have hpop2ne : pop2 ≠ [] :=
        mutation_ne_nil _ r _ _ (crossover_ne_nil pop n hne)
      have hzipne : (fitness pop2).zip pop2 ≠ [] := by
        intro h
        have h1 : ((fitness pop2).zip pop2).length = pop2.length := by
          simp [fitness]
        rw [h] at h1
        exact hpop2ne (List.length_eq_zero.mp h1.symm)
      obtain ⟨s, b, rest, hsort, hbranch⟩ :=
        eliminate_cases pop2 (fitness pop2) P hzipne
      have helim : ∃ pop3 scores3,
          eliminate pop2 (fitness pop2) P = some (pop3, scores3) := by
        rcases hbranch with ⟨_, h⟩ | ⟨_, h⟩
        · exact ⟨_, _, h⟩
        · exact ⟨_, _, h⟩
      obtain ⟨pop3, scores3, helim⟩ := helim
      have hpop3ne : pop3 ≠ [] :=
        eliminate_ne_nil pop2 (fitness pop2) P pop3 scores3 hP helim
      by_cases h0 : 0 ∈ scores3
      · obtain ⟨hsc3, bz, hpop3, hmem⟩ := eliminate_zero_mem pop2 (fitness pop2)
          P pop3 scores3 (by simp [fitness]) helim h0
        have hbz : evaluate_gen bz = 0 :=
          (zip_fitness_mem pop2 (0, bz) hmem).symm
        refine ⟨pop3, some (g + 1), ?_, hpop3ne, Or.inl ⟨bz, g + 1, rfl, hpop3, hbz,
          le_refl _, by omega⟩⟩
        rw [gaLoop_succ, helim]
        simp [h0]
      · obtain ⟨finalPop, res, hloop, hfne, hres⟩ :=
          ih (g + 1) pop3 hpop3ne
            (fun _ => eliminate_fitness_headMin pop2 P pop3 scores3 hP helim)
        refine ⟨finalPop, res, ?_, hfne, ?_⟩
        · rw [gaLoop_succ, helim]
          simp only [h0, if_false]
          exact hloop
        · rcases hres with ⟨b', g', hr1, hr2, hr3, hr4, hr5⟩ | hr
          · exact Or.inl ⟨b', g', hr1, hr2, hr3, by omega, by omega⟩
          · exact Or.inr hr

/-- C5: a run ends in exactly one of two distinguishable outcomes:
SOLVED — a zero-conflict board with `some` 1-based generation index in
`[1, 2N]` — or EXHAUSTED — the `none` indicator with the first (and
lowest-scoring) board of the final selected population. -/
theorem C5_two_outcomes (n P : ℕ) (r : ℚ) (rand : ℕ → ℕ → ℤ)
    (shuffles : ℕ → List ℕ) (cvs : ℕ → List (ℕ × ℤ))
    (hn : 1 ≤ n) (hP : 1 ≤ P) :
    ∃ (b : Board) (res : Option ℕ),
      start_algorithm n P r rand shuffles cvs = some (b, res)
      ∧ ((∃ g', res = some g' ∧ evaluate_gen b = 0 ∧ 1 ≤ g' ∧ g' ≤ 2 * n)
         ∨ (res = none ∧ ∃ finalPop,
              gaLoop n P r shuffles cvs (n * 2) 0 (build_population P n rand)
                = some (finalPop, none)
              ∧ finalPop.head? = some b
              ∧ ∀ c ∈ finalPop, evaluate_gen b ≤ evaluate_gen c)) := by
  have hbpne : build_population P n rand ≠ [] := by
    intro h
    have h1 : (build_population P n rand).length = P := by
      simp [build_population]
    rw [h] at h1
    simp at h1
    omega
  obtain ⟨finalPop, res, hloop, hfne, hbranch⟩ :=
    gaLoop_spec n P r shuffles cvs hP (n * 2) 0 (build_population P n rand)
      hbpne (fun h => absurd h (by omega))
  rcases hbranch with ⟨b, g', hres, hfp, hb0, hg1, hg2⟩ | ⟨hres, b0, hhead, hmin⟩
  · subst hres
    subst hfp
    refine ⟨b, some g', ?_, Or.inl ⟨g', rfl, hb0, by omega, by omega⟩⟩
    rw [start_algorithm, hloop]
    rfl
  · subst hres
    refine ⟨b0, none, ?_, Or.inr ⟨rfl, finalPop, hloop, hhead, hmin⟩⟩
    rw [start_algorithm, hloop]
    simp [hhead]

/-- Witness for C5 at `N = 1`, `P = 1`, rate `0`, all draws zero. -/
theorem C5_witness :
    ∃ (b : Board) (res : Option ℕ),
      start_algorithm 1 1 0 (fun _ _ => 0) (fun _ => []) (fun _ => [])
        = some (b, res)
      ∧ ((∃ g', res = some g' ∧ evaluate_gen b = 0 ∧ 1 ≤ g' ∧ g' ≤ 2 * 1)
         ∨ (res = none ∧ ∃ finalPop,
              gaLoop 1 1 0 (fun _ => []) (fun _ => []) (1 * 2) 0
                  (build_population 1 1 (fun _ _ => 0))
                = some (finalPop, none)
              ∧ finalPop.head? = some b
              ∧ ∀ c ∈ finalPop, evaluate_gen b ≤ evaluate_gen c)) :=
  C5_two_outcomes 1 1 0 (fun _ _ => 0) (fun _ => []) (fun _ => [])
    (le_refl 1) (le_refl 1)

theorem gaLoop_gen_le (n P : ℕ) (r : ℚ) (sh : ℕ → List ℕ)
    (cv : ℕ → List (ℕ × ℤ)) :
    ∀ (fuel g : ℕ) (pop fp : List Board) (g' : ℕ),
      gaLoop n P r sh cv fuel g pop = some (fp, some g') → g' ≤ g + fuel := by
  intro fuel
  induction fuel with
  | zero =>
      intro g pop fp g' h
      have h1 : ((pop, none) : List Board × Option ℕ) = (fp, some g') :=
        Option.some.inj h
      have h2 : (none : Option ℕ) = some g' := congrArg Prod.snd h1
      exact absurd h2 (by simp)
  | succ fuel ih =>
      intro g pop fp g' h
      rw [gaLoop_succ] at h
      split at h
      · exact absurd h (by simp)
      · split at h
        · have h1 := Option.some.inj h
          have h2 : some (g + 1) = some g' := congrArg Prod.snd h1
          have h3 : g + 1 = g' := Option.some.inj h2
          omega
        · have := ih _ _ _ _ h
          omega

theorem gaLoopCount_succ (n P : ℕ) (r : ℚ) (sh : ℕ → List ℕ)
    (cv : ℕ → List (ℕ × ℤ)) (fuel g : ℕ) (pop : List Board) :
    gaLoopCount n P r sh cv (fuel + 1) g pop =
      match eliminate (mutation (crossover pop n) r (sh g) (cv g))
          (fitness (mutation (crossover pop n) r (sh g) (cv g))) P with
      | none => (none, 1)
      | some (pop', scores') =>
          if 0 ∈ scores' then (some (pop', some (g + 1)), 1)
          else ((gaLoopCount n P r sh cv fuel (g + 1) pop').1,
                (gaLoopCount n P r sh cv fuel (g + 1) pop').2 + 1) := rfl

theorem gaLoopCount_fst (n P : ℕ) (r : ℚ) (sh : ℕ → List ℕ)
    (cv : ℕ → List (ℕ × ℤ)) :
    ∀ (fuel g : ℕ) (pop : List Board),
      (gaLoopCount n P r sh cv fuel g pop).1 = gaLoop n P r sh cv fuel g pop := by
  intro fuel
  induction fuel with
  | zero => intro g pop; rfl
  | succ fuel ih =>
      intro g pop
      rw [gaLoopCount_succ, gaLoop_succ]
      rcases heq : eliminate (mutation (crossover pop n) r (sh g) (cv g))
          (fitness (mutation (crossover pop n) r (sh g) (cv g))) P with _ | ⟨pop3, scores3⟩
      · rfl
      · by_cases h0 : 0 ∈ scores3
        · simp [h0]
        · simp only [h0, if_false]
          exact ih (g + 1) pop3

theorem gaLoopCount_le (n P : ℕ) (r : ℚ) (sh : ℕ → List ℕ)
    (cv : ℕ → List (ℕ × ℤ)) :
    ∀ (fuel g : ℕ) (pop : List Board),
      (gaLoopCount n P r sh cv fuel g pop).2 ≤ fuel := by
  intro fuel
  induction fuel with
  | zero => intro g pop; exact le_refl 0
  | succ fuel ih =>
      intro g pop
      rw [gaLoopCount_succ]
      rcases eliminate (mutation (crossover pop n) r (sh g) (cv g))
          (fitness (mutation (crossover pop n) r (sh g) (cv g))) P with _ | ⟨pop3, scores3⟩
      · simp
      · by_cases h0 : 0 ∈ scores3
        · simp [h0]
        · simp only [h0, if_false]
          have := ih (g + 1) pop3
          omega

/-- C6: the engine always terminates; it executes at most `2N`
recombination/mutation/evaluation/selection cycles (the instrumented
cycle counter, which computes the same result as the loop, never exceeds
`2N`), and any reported generation index is at most `2N`. -/
theorem C6_generation_budget (n P : ℕ) (r : ℚ) (rand : ℕ → ℕ → ℤ)
    (shuffles : ℕ → List ℕ) (cvs : ℕ → List (ℕ × ℤ))
    (hn : 1 ≤ n) (hP : 1 ≤ P) (hr0 : 0 ≤ r) (hr1 : r ≤ 1) :
    (gaLoopCount n P r shuffles cvs (n * 2) 0 (build_population P n rand)).1
      = gaLoop n P r shuffles cvs (n * 2) 0 (build_population P n rand)
    ∧ (gaLoopCount n P r shuffles cvs (n * 2) 0 (build_population P n rand)).2 ≤ 2 * n
    ∧ (∀ (b : Board) (g' : ℕ),
        start_algorithm n P r rand shuffles cvs = some (b, some g') → g' ≤ 2 * n) := by
  refine ⟨gaLoopCount_fst n P r shuffles cvs (n * 2) 0 _, ?_, ?_⟩
  · have := gaLoopCount_le n P r shuffles cvs (n * 2) 0 (build_population P n rand)
    omega
  · intro b g' h
    rw [start_algorithm] at h
    obtain ⟨a, ha, hmap⟩ := Option.bind_eq_some.mp h
    obtain ⟨fp, res⟩ := a
    obtain ⟨b', hb', heq⟩ := Option.map_eq_some'.mp hmap
    have hres : res = some g' := congrArg Prod.snd heq
    subst hres
    have := gaLoop_gen_le n P r shuffles cvs (n * 2) 0 _ fp g' ha
    omega

/-- Witness for C6 at `N = 1`, `P = 1`, rate `0`. -/
theorem C6_witness :
    (gaLoopCount 1 1 0 (fun _ => []) (fun _ => []) (1 * 2) 0
        (build_population 1 1 (fun _ _ => 0))).2 ≤ 2 * 1 :=
  (C6_generation_budget 1 1 0 (fun _ _ => 0) (fun _ => []) (fun _ => [])
    (le_refl 1) (le_refl 1) (by norm_num) (by norm_num)).2.1

theorem evaluate_gen_length_one (b : Board) (h : b.length = 1) :
    evaluate_gen b = 0 := by
  rw [evaluate_gen, h]
  rfl

theorem build_population_n_one (P : ℕ) (rand : ℕ → ℕ → ℤ)
    (hrand : ∀ bi k, 0 ≤ rand bi k ∧ rand bi k ≤ (1 : ℤ) - 1) :
    ∀ b ∈ build_population P 1 rand, b = [0] := by
  intro b hb
  obtain ⟨bi, _, rfl⟩ := List.mem_map.mp hb
  have h1 : List.range 1 = [0] := rfl
  rw [h1, List.map_cons, List.map_nil]
  have h2 := hrand bi 0
  have h3 : rand bi 0 = 0 := by omega
  rw [h3]

theorem crossover_all_zero (pop : List Board) (h : ∀ b ∈ pop, b = [0]) :
    ∀ b ∈ crossover pop 1, b = [0] := by
  intro b hb
  rcases List.mem_append.mp hb with hm | hm
  · exact h b hm
  · obtain ⟨a, b', ha, hb', heq⟩ := mem_crossoverChildren (1 / 2) pop b hm
    rcases heq with h1 | h1 <;> rw [h1, h a ha, h b' hb'] <;> rfl

theorem singleton_zero_set (c : ℕ) : ([0] : Board).set c 0 = [0] := by
  cases c with
  | zero => rfl
  | succ c => simp

theorem foldl_mutateAt_all_zero :
    ∀ (l : List (ℕ × ℕ × ℤ)), (∀ t ∈ l, t.2.2 = 0) →
      ∀ pop : List Board, (∀ b ∈ pop, b = [0]) →
      ∀ b ∈ l.foldl (fun p t => mutateAt p t.1 t.2.1 t.2.2) pop, b = [0]
  | [], _, pop, hpop => hpop
  | t :: ts, hval, pop, hpop => by
      rw [List.foldl_cons]
      refine foldl_mutateAt_all_zero ts (fun u hu => hval u (List.mem_cons_of_mem t hu))
        _ ?_
      intro b hb
      by_cases hi : t.1 < pop.length
      · rcases List.mem_or_eq_of_mem_set hb with hm | rfl
        · exact hpop b hm
        · rw [List.getD_eq_getElem pop [] hi, hpop _ (List.getElem_mem hi),
            hval t (List.mem_cons_self t ts)]
          exact singleton_zero_set t.2.1
      · rw [mutateAt, List.set_eq_of_length_le (Nat.le_of_not_lt hi)] at hb
        exact hpop b hb

/-- C9: for `N = 1` every length-1 board has fitness `0`, and for every
`P ≥ 1`, every rate and every admissible random draw the engine reaches
SOLVED in the first generation, emitting board `[0]` with generation
index `1`. -/
theorem C9_n_one (P : ℕ) (r : ℚ) (rand : ℕ → ℕ → ℤ)
    (shuffles : ℕ → List ℕ) (cvs : ℕ → List (ℕ × ℤ)) (hP : 1 ≤ P)
    (hrand : ∀ bi k, 0 ≤ rand bi k ∧ rand bi k ≤ (1 : ℤ) - 1)
    (hcv : ∀ p ∈ cvs 0, p.1 = 0 ∧ p.2 = 0) :
    (∀ b : Board, b.length = 1 → evaluate_gen b = 0)
    ∧ start_algorithm 1 P r rand shuffles cvs = some ([0], some 1) := by
  refine ⟨fun b h => evaluate_gen_length_one b h, ?_⟩
  have hbp : ∀ b ∈ build_population P 1 rand, b = [0] :=
    build_population_n_one P rand hrand
  have hbpne : build_population P 1 rand ≠ [] := by
    intro h
    have h1 : (build_population P 1 rand).length = P := by
      simp [build_population]
    rw [h] at h1
    simp at h1
    omega
  have hpop2 : ∀ b ∈ mutation (crossover (build_population P 1 rand) 1) r
      (shuffles 0) (cvs 0), b = [0] := by
    refine foldl_mutateAt_all_zero _ (fun t ht => ?_) _
      (crossover_all_zero _ hbp)
    exact (hcv t.2 (List.of_mem_zip ht).2).2
  have hpop2ne : mutation (crossover (build_population P 1 rand) 1) r
      (shuffles 0) (cvs 0) ≠ [] :=
    mutation_ne_nil _ r _ _ (crossover_ne_nil _ 1 hbpne)
  have hzipne : (fitness (mutation (crossover (build_population P 1 rand) 1) r
      (shuffles 0) (cvs 0))).zip (mutation (crossover (build_population P 1 rand) 1) r
      (shuffles 0) (cvs 0)) ≠ [] := by
    intro h
    have h1 := congrArg List.length h
    simp [fitness] at h1
    exact hpop2ne h1
  obtain ⟨s, b, rest, hsort, hbranch⟩ :=
    eliminate_cases _ _ P hzipne
  have hperm : ((s, b) :: rest).Perm _ :=
    hsort ▸ List.perm_insertionSort scoreLE _
  have hmemzip := hperm.mem_iff.mp (List.mem_cons_self (s, b) rest)
  have hbz : b = [0] := hpop2 b (List.of_mem_zip hmemzip).2
  have hs0 : s = 0 := by
    have h := zip_fitness_mem _ (s, b) hmemzip
    rw [hbz] at h
    exact h
  rcases hbranch with ⟨_, helim⟩ | ⟨hne0, _⟩
  · have hrun : gaLoop 1 P r shuffles cvs (1 * 2) 0 (build_population P 1 rand)
        = some ([b], some 1) := by
      have e : (1 * 2 : ℕ) = 1 + 1 := rfl
      rw [e, gaLoop_succ, helim]
      rfl
    rw [start_algorithm, hrun, hbz]
    rfl
  · exact absurd hs0 hne0

/-- Witness for C9 at `P = 1`, rate `0`, all draws zero. -/
theorem C9_witness :
    start_algorithm 1 1 0 (fun _ _ => 0) (fun _ => []) (fun _ => [])
      = some ([0], some 1) :=
  (C9_n_one 1 0 (fun _ _ => 0) (fun _ => []) (fun _ => []) (le_refl 1)
    (fun _ _ => by norm_num) (fun p hp => absurd hp (List.not_mem_nil p))).2
